import Mathlib

/-!
Shallow embedding of `src/index.ts` of the chord-analyzer repository.

The implementation is JavaScript/TypeScript, so the embedding models the
JavaScript primitives the code relies on:

* `String.prototype.includes` is substring containment (`jsIncludes`);
* `String.prototype.split(c)` with a one-character separator (`jsSplit`);
* `Array.prototype.join(c)` (`jsJoin`);
* the `%` operator, a remainder that takes the sign of the dividend (`jsRem`);
* indexing an array out of range yields `undefined`, and calling a method on
  `undefined` throws a `TypeError` (`tableAt` returning `none`, propagated as
  `JsError.typeError`);
* thrown exceptions are modelled with `Except JsError`.

The chromatic-scale table itself lives in `src/objects/chromaticScale`, a file
that is not part of the source snapshot; it is modelled from the spec (see
`chromaticScale` below).
-/

/-- The error kinds of the program: the `Invalid chord format` throw, the
`Note ... not found` throw, and the implicit JavaScript `TypeError` raised by
calling a method on `undefined`. -/
inductive JsError : Type where
  | invalidChordFormat : String → JsError
  | unknownNote : String → JsError
  | typeError : JsError
deriving DecidableEq, Repr

/-- List-level check that the first list is a leading segment of the second. -/
def isPrefixB : List Char → List Char → Bool
  | [], _ => true
  | _ :: _, [] => false
  | a :: as, b :: bs => a == b && isPrefixB as bs

/-- List-level substring occurrence check: `sub` occurs somewhere in the
second argument. -/
def inclList (sub : List Char) : List Char → Bool
  | [] => isPrefixB sub []
  | c :: t => isPrefixB sub (c :: t) || inclList sub t

/-- JavaScript `s.includes(sub)`: substring containment. -/
def jsIncludes (s sub : String) : Bool :=
  inclList sub.data s.data

/-- Split a character list on every occurrence of `sep`, keeping empty
segments, exactly as JavaScript `split` with a one-character separator does. -/
def splitOnChar (sep : Char) : List Char → List (List Char)
  | [] => [[]]
  | c :: t =>
    let rest := splitOnChar sep t
    if c == sep then [] :: rest
    else
      match rest with
      | [] => [[c]]
      | h :: t2 => (c :: h) :: t2

/-- JavaScript `s.split(sep)` for a one-character separator. -/
def jsSplit (s : String) (sep : Char) : List String :=
  (splitOnChar sep s.data).map fun l => ⟨l⟩

/-- JavaScript `parts.join(sep)` for a one-character separator. -/
def jsJoin (sep : Char) : List String → String
  | [] => ""
  | [s] => s
  | s :: rest => s ++ ⟨[sep]⟩ ++ jsJoin sep rest

/-- JavaScript `%` on integers: remainder carrying the sign of the dividend. -/
def jsRem (a b : Int) : Int :=
  if a < 0 then -((-a) % b) else a % b

/-- Modelled from the spec: the table exported by `src/objects/chromaticScale`
is missing from the source snapshot; the spec describes it as an ordered
sequence of exactly 12 entries, index 0 = C, each entry either a natural
spelling or an enharmonic pair joined by the separator with the sharp form
first and the flat form second (e.g. "C#/Db"). -/
def chromaticScale : List String :=
  ["C", "C#/Db", "D", "D#/Eb", "E", "F", "F#/Gb", "G", "G#/Ab", "A", "A#/Bb", "B"]

/-- The scan loop of `getNoteIndex`: walk the table, returning the counter of
the first entry for which JavaScript `entry.includes(note)` holds. -/
def getNoteIndexAux (note : String) : List String → Nat → Except JsError Nat
  | [], _ => .error (.unknownNote note)
  | e :: rest, i =>
    if jsIncludes e note then .ok i else getNoteIndexAux note rest (i + 1)

/-- `getNoteIndex` from `src/index.ts`: linear scan of `chromaticScale` using
`includes`, throwing when no entry contains the note. -/
def getNoteIndex (note : String) : Except JsError Nat :=
  getNoteIndexAux note chromaticScale 0

/-- `chooseEnharmonic` from `src/index.ts`. `enharmonics[0]` is modelled by
`headD` (a JavaScript split never returns an empty array) and `enharmonics[1]`
by `get? 1`; when the latter is `undefined`, invoking `.includes` on it throws
a `TypeError`. Short-circuit `&&` means that access only happens when
`direction < 0`. -/
def chooseEnharmonic (note : String) (direction : Int) : Except JsError String :=
  if 0 < direction ∧ jsIncludes ((jsSplit note '/').headD "") "#" = true then
    .ok ((jsSplit note '/').headD "")
  else if direction < 0 then
    match (jsSplit note '/').get? 1 with
    | none => .error .typeError
    | some e1 =>
      if jsIncludes e1 "b" = true then .ok e1
      else .ok ((jsSplit note '/').headD "")
  else .ok ((jsSplit note '/').headD "")

/-- Lines 66–68 of `src/index.ts`: the new root is the table entry, replaced
by its chosen enharmonic half exactly when the entry contains the separator. -/
def pickSpelling (entry : String) (interval : Int) : Except JsError String :=
  if jsIncludes entry "/" = true then chooseEnharmonic entry interval
  else .ok entry

/-- Whether a character is matched by the regex class `[A-G]`. -/
def isNoteLetter (c : Char) : Bool :=
  'A' ≤ c && c ≤ 'G'

/-- The match of the regex `[A-G](#|b)?` (no anchor): scan for the leftmost
position whose character is in `[A-G]`, then greedily take one following `#`
or `b`. Returns the matched text, `none` when the regex fails. -/
def findRoot : List Char → Option (List Char)
  | [] => none
  | c :: rest =>
    if isNoteLetter c then
      some (c :: match rest with
        | d :: _ => if d == '#' || d == 'b' then [d] else []
        | [] => [])
    else findRoot rest

/-- JavaScript array indexing into the chromatic table: `undefined` (`none`)
when the integer index is out of range. -/
def tableAt (i : Int) : Option String :=
  if i < 0 then none else chromaticScale.get? i.toNat

/-- `transposeChord` from `src/index.ts`. The quality is
`chord.slice(root.length)`, taken from the start of the string even when the
regex matched later. `newIndex` is
`(rootIndex + interval + chromaticScale.length) % chromaticScale.length` with
the JavaScript remainder; an out-of-range `newIndex` makes
`chromaticScale[newIndex]` `undefined`, so the subsequent `.includes('/')`
throws a `TypeError`. -/
def transposeChord (chord : String) (interval : Int) : Except JsError String :=
  match findRoot chord.data with
  | none => .error (.invalidChordFormat chord)
  | some rootChars =>
    let root : String := ⟨rootChars⟩
    let quality : String := ⟨chord.data.drop rootChars.length⟩
    match getNoteIndex root with
    | .error e => .error e
    | .ok rootIndex =>
      match tableAt (jsRem ((rootIndex : Int) + interval + (chromaticScale.length : Int))
          (chromaticScale.length : Int)) with
      | none => .error .typeError
      | some entry =>
        match pickSpelling entry interval with
        | .error e => .error e
        | .ok newRoot => .ok (newRoot ++ quality)

/-- The root-transposition pipeline of `transposeChord` in isolation: resolve
the root, shift, look the entry up, choose the spelling. `transposeChord` is
this computation followed by appending the untouched quality suffix. -/
def transposeRoot (root : String) (interval : Int) : Except JsError String :=
  match getNoteIndex root with
  | .error e => .error e
  | .ok rootIndex =>
    match tableAt (jsRem ((rootIndex : Int) + interval + (chromaticScale.length : Int))
        (chromaticScale.length : Int)) with
    | none => .error .typeError
    | some entry => pickSpelling entry interval

/-- JavaScript `Array.prototype.map` over a callback that may throw: elements
are processed left to right and the first exception aborts the whole map. -/
def mapExcept (f : String → Except JsError String) : List String → Except JsError (List String)
  | [] => .ok []
  | c :: t =>
    match f c with
    | .error e => .error e
    | .ok r =>
      match mapExcept f t with
      | .error e => .error e
      | .ok rs => .ok (r :: rs)

/-- `transposeChords` from `src/index.ts`: split on single spaces, transpose
every element, join with single spaces. -/
def transposeChords (chords : String) (interval : Int) : Except JsError String :=
  match mapExcept (fun chord => transposeChord chord interval) (jsSplit chords ' ') with
  | .error e => .error e
  | .ok rs => .ok (jsJoin ' ' rs)

/-- The matching relation the spec describes for the note resolver: the
spelling equals the entry outright, or equals one half of the entry split on
the separator. Stated from the spec's words, for comparison with the
`includes`-based matching of `getNoteIndex`. -/
def specMatches (note entry : String) : Bool :=
  note == entry || (jsSplit entry '/').contains note

/-- Scan loop for `specNoteIndex`. -/
def specNoteIndexAux (note : String) : List String → Nat → Option Nat
  | [], _ => none
  | e :: rest, i =>
    if specMatches note e then some i else specNoteIndexAux note rest (i + 1)

/-- The index the spec's matching rule assigns to a spelling: the first table
entry it `specMatches`. -/
def specNoteIndex (note : String) : Option Nat :=
  specNoteIndexAux note chromaticScale 0

/-- Every spelling the table offers: natural entries themselves, and the two
halves of each enharmonic-pair entry. -/
def tableSpellings : List String :=
  chromaticScale.flatMap fun e =>
    if jsIncludes e "/" = true then jsSplit e '/' else [e]

/-! ## Helper lemmas -/

/-- The scan counter of `getNoteIndexAux` stays below the start plus the
number of remaining entries. -/
theorem getNoteIndexAux_lt (note : String) :
    ∀ (l : List String) (i r : Nat), getNoteIndexAux note l i = .ok r → r < i + l.length := by
  intro l
  induction l with
  | nil => intro i r h; simp [getNoteIndexAux] at h
  | cons e rest ih =>
    intro i r h
    unfold getNoteIndexAux at h
    split at h
    · injection h with h1
      subst h1
      simp
    · have := ih (i + 1) r h
      simp only [List.length_cons]
      omega

/-- A successful `getNoteIndex` always yields an index below 12. -/
theorem getNoteIndex_lt (note : String) (r : Nat) (h : getNoteIndex note = .ok r) : r < 12 := by
  have h2 := getNoteIndexAux_lt note chromaticScale 0 r h
  simpa [chromaticScale] using h2

/-- On a non-negative dividend, the JavaScript remainder agrees with the
mathematical (euclidean) one. -/
theorem jsRem_of_nonneg (a b : Int) (h : 0 ≤ a) : jsRem a b = a % b := by
  unfold jsRem
  rw [if_neg (by omega)]

/-- A table lookup at an index in `[0, 12)` succeeds. -/
theorem tableAt_isSome (i : Int) (h0 : 0 ≤ i) (h12 : i < 12) : (tableAt i).isSome = true := by
  unfold tableAt
  rw [if_neg (by omega)]
  have hlt : i.toNat < 12 := by omega
  have hall : ∀ k : Nat, k < 12 → (chromaticScale.get? k).isSome = true := by decide
  exact hall i.toNat hlt

/-- A successful table lookup returns a member of the table. -/
theorem tableAt_mem (i : Int) (e : String) (h : tableAt i = some e) : e ∈ chromaticScale := by
  unfold tableAt at h
  split at h
  · exact absurd h (by simp)
  · exact List.get?_mem h

/-- A JavaScript split never produces an empty array. -/
theorem splitOnChar_ne_nil (sep : Char) (l : List Char) : splitOnChar sep l ≠ [] := by
  cases l with
  | nil => simp [splitOnChar]
  | cons c t =>
    simp only [splitOnChar]
    split
    · simp
    · split <;> simp

/-- `jsSplit` never produces an empty list. -/
theorem jsSplit_ne_nil (s : String) (sep : Char) : jsSplit s sep ≠ [] := by
  unfold jsSplit
  intro hc
  exact splitOnChar_ne_nil sep s.data (List.map_eq_nil_iff.mp hc)

/-- The default-headed head of a non-empty list is a member. -/
theorem headD_mem (l : List String) (d : String) (h : l ≠ []) : l.headD d ∈ l := by
  cases l with
  | nil => exact absurd rfl h
  | cons a t => simp [List.headD]

/-- Whatever `chooseEnharmonic` returns came from splitting its argument on
the separator. -/
theorem chooseEnharmonic_mem (note nr : String) (d : Int)
    (h : chooseEnharmonic note d = .ok nr) : nr ∈ jsSplit note '/' := by
  have hne : jsSplit note '/' ≠ [] := jsSplit_ne_nil note '/'
  unfold chooseEnharmonic at h
  split at h
  · injection h with h1
    subst h1
    exact headD_mem _ _ hne
  · split at h
    · split at h
      · exact absurd h (by simp)
      · rename_i e1 hget
        split at h
        · injection h with h1
          subst h1
          exact List.get?_mem hget
        · injection h with h1
          subst h1
          exact headD_mem _ _ hne
    · injection h with h1
      subst h1
      exact headD_mem _ _ hne

/-- The exact decision rule of `chooseEnharmonic` on an entry that splits
into a sharp-marked half followed by a second half. -/
theorem chooseEnharmonic_pair_eq (note a b : String) (hsplit : jsSplit note '/' = [a, b])
    (ha : jsIncludes a "#" = true) (d : Int) :
    chooseEnharmonic note d =
      .ok (if 0 < d then a else if d < 0 ∧ jsIncludes b "b" = true then b else a) := by
  unfold chooseEnharmonic
  rw [hsplit]
  simp only [List.headD, List.get?]
  by_cases h1 : 0 < d
  · rw [if_pos ⟨h1, ha⟩, if_pos h1]
  · rw [if_neg (fun hc => h1 hc.1), if_neg h1]
    by_cases h2 : d < 0
    · rw [if_pos h2]
      by_cases h3 : jsIncludes b "b" = true
      · rw [if_pos h3, if_pos ⟨h2, h3⟩]
      · rw [if_neg h3, if_neg (fun hc => h3 hc.2)]
    · rw [if_neg h2, if_neg (fun hc => h2 hc.1)]

/-- On an entry with no separator, `pickSpelling` keeps the entry. -/
theorem pickSpelling_natural (e : String) (d : Int) (hslash : jsIncludes e "/" = false) :
    pickSpelling e d = .ok e := by
  unfold pickSpelling
  rw [if_neg (by simp [hslash])]

/-- A natural entry resolving to `j` yields, for every direction, a spelling
resolving to `j`. -/
theorem natural_resolve (e : String) (j : Nat) (hslash : jsIncludes e "/" = false)
    (hres : getNoteIndex e = .ok j) (d : Int) :
    ∃ nr, pickSpelling e d = .ok nr ∧ getNoteIndex nr = .ok j := by
  exact ⟨e, pickSpelling_natural e d hslash, hres⟩

/-- A pair entry whose two halves both resolve to `j` yields, for every
direction, a spelling resolving to `j`. -/
theorem pair_resolve (e a b : String) (j : Nat) (hslash : jsIncludes e "/" = true)
    (hsplit : jsSplit e '/' = [a, b]) (ha : jsIncludes a "#" = true)
    (hja : getNoteIndex a = .ok j) (hjb : getNoteIndex b = .ok j) (d : Int) :
    ∃ nr, pickSpelling e d = .ok nr ∧ getNoteIndex nr = .ok j := by
  have hpick : pickSpelling e d = chooseEnharmonic e d := by
    unfold pickSpelling
    rw [if_pos hslash]
  rw [hpick, chooseEnharmonic_pair_eq e a b hsplit ha d]
  refine ⟨_, rfl, ?_⟩
  split_ifs <;> first | exact hja | exact hjb

/-- Every table slot holds an entry all of whose selectable spellings resolve
to one common index, whatever the transposition direction. -/
theorem entry_resolve (k : Nat) (hk : k < 12) :
    ∃ e j, chromaticScale.get? k = some e ∧
      ∀ d : Int, ∃ nr, pickSpelling e d = .ok nr ∧ getNoteIndex nr = .ok j := by
  interval_cases k
  · exact ⟨"C", 0, rfl, natural_resolve "C" 0 (by decide) rfl⟩
  · exact ⟨"C#/Db", 1, rfl,
      pair_resolve "C#/Db" "C#" "Db" 1 (by decide) (by decide) (by decide) rfl rfl⟩
  · exact ⟨"D", 1, rfl, natural_resolve "D" 1 (by decide) rfl⟩
  · exact ⟨"D#/Eb", 3, rfl,
      pair_resolve "D#/Eb" "D#" "Eb" 3 (by decide) (by decide) (by decide) rfl rfl⟩
  · exact ⟨"E", 3, rfl, natural_resolve "E" 3 (by decide) rfl⟩
  · exact ⟨"F", 5, rfl, natural_resolve "F" 5 (by decide) rfl⟩
  · exact ⟨"F#/Gb", 6, rfl,
      pair_resolve "F#/Gb" "F#" "Gb" 6 (by decide) (by decide) (by decide) rfl rfl⟩
  · exact ⟨"G", 6, rfl, natural_resolve "G" 6 (by decide) rfl⟩
  · exact ⟨"G#/Ab", 8, rfl,
      pair_resolve "G#/Ab" "G#" "Ab" 8 (by decide) (by decide) (by decide) rfl rfl⟩
  · exact ⟨"A", 8, rfl, natural_resolve "A" 8 (by decide) rfl⟩
  · exact ⟨"A#/Bb", 10, rfl,
      pair_resolve "A#/Bb" "A#" "Bb" 10 (by decide) (by decide) (by decide) rfl rfl⟩
  · exact ⟨"B", 10, rfl, natural_resolve "B" 10 (by decide) rfl⟩

/-- When the regex finds a root, `transposeChord` is the root pipeline
followed by appending the quality suffix taken off the front of the input. -/
theorem transposeChord_eq (chord : String) (i : Int) (rc : List Char)
    (hrc : findRoot chord.data = some rc) :
    transposeChord chord i =
      Except.map (fun nr => nr ++ (⟨chord.data.drop rc.length⟩ : String))
        (transposeRoot ⟨rc⟩ i) := by
  unfold transposeChord transposeRoot
  simp only [hrc]
  cases hg : getNoteIndex (⟨rc⟩ : String) with
  | error e => rfl
  | ok ri =>
    dsimp only
    cases ht : tableAt (jsRem ((ri : Int) + i + (chromaticScale.length : Int))
        (chromaticScale.length : Int)) with
    | none => rfl
    | some entry =>
      dsimp only
      cases hp : pickSpelling entry i <;> rfl

/-- `mapExcept` succeeding means every element succeeded, in order, with the
results collected positionally. -/
theorem mapExcept_ok_spec (f : String → Except JsError String) :
    ∀ (l outs : List String), mapExcept f l = .ok outs →
      outs.length = l.length ∧
      ∀ (j : Nat) (h1 : j < l.length) (h2 : j < outs.length),
        f (l.get ⟨j, h1⟩) = .ok (outs.get ⟨j, h2⟩) := by
  intro l
  induction l with
  | nil =>
    intro outs h
    unfold mapExcept at h
    injection h with h1
    subst h1
    exact ⟨rfl, by intro j h1 h2; exact absurd h1 (by simp)⟩
  | cons c t ih =>
    intro outs h
    unfold mapExcept at h
    cases hfc : f c with
    | error e =>
      simp only [hfc] at h
      exact Except.noConfusion h
    | ok r =>
      simp only [hfc] at h
      cases hmt : mapExcept f t with
      | error e =>
        simp only [hmt] at h
        exact Except.noConfusion h
      | ok rs =>
        simp only [hmt] at h
        injection h with h2
        subst h2
        obtain ⟨ihl, ihg⟩ := ih rs hmt
        refine ⟨by simp [ihl], ?_⟩
        intro j h1 h2
        cases j with
        | zero => simpa [List.get] using hfc
        | succ j2 =>
          have hj := ihg j2 (by simpa using h1) (by simpa using h2)
          simpa [List.get] using hj

/-- `mapExcept` propagates the error of the first failing element. -/
theorem mapExcept_error_first (f : String → Except JsError String) :
    ∀ (l : List String) (e : JsError) (k : Nat) (hk : k < l.length),
      f (l.get ⟨k, hk⟩) = .error e →
      (∀ (j : Nat) (hj : j < k), ∃ oj, f (l.get ⟨j, Nat.lt_trans hj hk⟩) = .ok oj) →
      mapExcept f l = .error e := by
  intro l
  induction l with
  | nil =>
    intro e k hk
    exact absurd hk (by simp)
  | cons c t ih =>
    intro e k hk hfk hprev
    cases k with
    | zero =>
      have hfc : f c = .error e := by simpa [List.get] using hfk
      simp only [mapExcept, hfc]
    | succ k2 =>
      have hk2 : k2 < t.length := Nat.lt_of_succ_lt_succ hk
      have hfk2 : f (t.get ⟨k2, hk2⟩) = .error e := by
        simpa [List.get] using hfk
      have hprev2 : ∀ (j : Nat) (hj : j < k2),
          ∃ oj, f (t.get ⟨j, Nat.lt_trans hj hk2⟩) = .ok oj := by
        intro j hj
        have hp := hprev (j + 1) (Nat.succ_lt_succ hj)
        simpa [List.get] using hp
      obtain ⟨o0, ho0⟩ := hprev 0 (Nat.succ_pos k2)
      have ho0c : f c = .ok o0 := by simpa [List.get] using ho0
      have htail := ih e k2 hk2 hfk2 hprev2
      simp only [mapExcept, ho0c, htail]

/-! ## Claim theorems -/

/-- Claim C1 (code bug): the spec says a spelling matches an entry only when
it equals the entry outright or equals one half of the entry split on the
separator, which puts "D" at index 2; but `getNoteIndex` uses JavaScript
substring `includes`, so "D" already matches the entry "C#/Db" (its substring
"D" inside "Db") and resolves to index 1. -/
theorem c1_substring_matching_bug :
    getNoteIndex "D" = .ok 1 ∧
    specMatches "D" "C#/Db" = false ∧
    specNoteIndex "D" = some 2 :=
  ⟨rfl, rfl, rfl⟩

/-- Claim C2 (code bug): because `getNoteIndex` resolves "G" to 6 (substring
of "F#/Gb") and "A" to 8 (substring of "G#/Ab"), the reference example
produces "G C# D#m C", not the "G D Em C" the spec states; in particular
`transposeChord("Am", 7)` is "D#m", not "Em" (the quality "m" is preserved,
but the root is wrong). -/
theorem c2_example_transposition :
    transposeChords "C G Am F" 7 = .ok "G C# D#m C" ∧
    transposeChord "Am" 7 = .ok "D#m" ∧
    getNoteIndex "G" = .ok 6 ∧
    getNoteIndex "A" = .ok 8 :=
  ⟨rfl, rfl, rfl, rfl⟩

/-- Claim C3, counterexample: for the chord "C" (root index 0) and interval
-13, the code's `(0 + (-13) + 12) % 12` is the JavaScript remainder -1, not a
value in `[0,12)`; the table lookup is out of bounds and the call throws a
`TypeError` instead of returning a chord. -/
theorem c3_counterexample :
    getNoteIndex "C" = .ok 0 ∧
    jsRem (((0 : Nat) : Int) + (-13) + (chromaticScale.length : Int))
      (chromaticScale.length : Int) = -1 ∧
    transposeChord "C" (-13) = .error .typeError :=
  ⟨rfl, by decide, rfl⟩

/-- Claim C3, amended: for every root that `getNoteIndex` resolves and every
interval with `rootIndex + interval + 12 ≥ 0`, the computed index is
non-negative, below 12, and the table lookup succeeds. -/
theorem c3_normalization_partial (note : String) (r : Nat) (interval : Int)
    (_h : getNoteIndex note = .ok r) (hge : 0 ≤ (r : Int) + interval + 12) :
    0 ≤ jsRem ((r : Int) + interval + 12) 12 ∧
    jsRem ((r : Int) + interval + 12) 12 < 12 ∧
    (tableAt (jsRem ((r : Int) + interval + 12) 12)).isSome = true := by
  have h1 : jsRem ((r : Int) + interval + 12) 12 = ((r : Int) + interval + 12) % 12 :=
    jsRem_of_nonneg _ _ hge
  have h2 : 0 ≤ ((r : Int) + interval + 12) % 12 := Int.emod_nonneg _ (by norm_num)
  have h3 : ((r : Int) + interval + 12) % 12 < 12 := Int.emod_lt_of_pos _ (by norm_num)
  exact ⟨h1 ▸ h2, h1 ▸ h3, tableAt_isSome _ (h1 ▸ h2) (h1 ▸ h3)⟩

/-- Witness for the amended C3 at the root "C" and interval -5. -/
theorem c3_normalization_partial_witness :
    getNoteIndex "C" = .ok 0 ∧
    (0 ≤ ((0 : Nat) : Int) + (-5) + 12) ∧
    (0 ≤ jsRem (((0 : Nat) : Int) + (-5) + 12) 12 ∧
     jsRem (((0 : Nat) : Int) + (-5) + 12) 12 < 12 ∧
     (tableAt (jsRem (((0 : Nat) : Int) + (-5) + 12) 12)).isSome = true) :=
  ⟨rfl, by decide, c3_normalization_partial "C" 0 (-5) rfl (by decide)⟩

/-- Claim C4 (code bug): the regex `[A-G](#|b)?` in the code carries no start
anchor. On "xC", which does not begin with a note letter, the match finds the
later "C", no `InvalidChordFormatError` is raised, and the quality is sliced
from the wrong place, producing "CC". -/
theorem c4_unanchored_root_match :
    findRoot ("xC" : String).data = some ['C'] ∧
    transposeChord "xC" 0 = .ok "CC" :=
  ⟨rfl, rfl⟩

/-- Claim C5 (code bug): the round trip fails. Transposing "C" by 2 gives
"D"; transposing "D" by -2 gives "B", because `getNoteIndex` resolves "D" to
1 (substring of "C#/Db") rather than 2. The final chord "B" resolves to 10
(substring of "A#/Bb") while the original "C" resolves to 0. -/
theorem c5_roundtrip_failure :
    transposeChord "C" 2 = .ok "D" ∧
    transposeChord "D" (-2) = .ok "B" ∧
    getNoteIndex "C" = .ok 0 ∧
    getNoteIndex "B" = .ok 10 :=
  ⟨rfl, rfl, rfl, rfl⟩

/-- Claim C6, counterexample: for the chord "C", transposing by -13 throws a
`TypeError` (out-of-bounds lookup) while transposing by -13 + 12 = -1
succeeds with "B", so the two do not yield the same pitch class. -/
theorem c6_counterexample :
    transposeChord "C" (-13) = .error .typeError ∧
    transposeChord "C" (-13 + 12) = .ok "B" :=
  ⟨rfl, rfl⟩

/-- Claim C6, amended: for every chord whose root the regex finds and the
resolver maps to `r`, and every interval `n` with `r + n + 12 ≥ 0`, both the
transposition by `n` and the one by `n + 12` succeed and their output roots
resolve to one common table index. -/
theorem c6_modulo_closure (chord : String) (n : Int) (rc : List Char) (r : Nat)
    (hrc : findRoot chord.data = some rc) (hr : getNoteIndex ⟨rc⟩ = .ok r)
    (hn : 0 ≤ (r : Int) + n + 12) :
    ∃ (nr1 nr2 : String) (j : Nat),
      transposeChord chord n = .ok (nr1 ++ (⟨chord.data.drop rc.length⟩ : String)) ∧
      transposeChord chord (n + 12) = .ok (nr2 ++ (⟨chord.data.drop rc.length⟩ : String)) ∧
      getNoteIndex nr1 = .ok j ∧ getNoteIndex nr2 = .ok j := by
  have hlen : (chromaticScale.length : Int) = 12 := rfl
  have hm1 : jsRem ((r : Int) + n + 12) 12 = ((r : Int) + n + 12) % 12 :=
    jsRem_of_nonneg _ _ hn
  have hm2 : jsRem ((r : Int) + (n + 12) + 12) 12 = ((r : Int) + n + 12) % 12 := by
    rw [jsRem_of_nonneg _ _ (by omega)]
    have he : (r : Int) + (n + 12) + 12 = ((r : Int) + n + 12) + 12 * 1 := by ring
    rw [he, Int.add_mul_emod_self_left]
  have hm0 : 0 ≤ ((r : Int) + n + 12) % 12 := Int.emod_nonneg _ (by norm_num)
  have hm12 : ((r : Int) + n + 12) % 12 < 12 := Int.emod_lt_of_pos _ (by norm_num)
  have hkn : (((r : Int) + n + 12) % 12).toNat < 12 := by omega
  obtain ⟨e, j, hget, hpick⟩ := entry_resolve (((r : Int) + n + 12) % 12).toNat hkn
  have htab : tableAt (((r : Int) + n + 12) % 12) = some e := by
    unfold tableAt
    rw [if_neg (by omega)]
    exact hget
  obtain ⟨nr1, hp1, hj1⟩ := hpick n
  obtain ⟨nr2, hp2, hj2⟩ := hpick (n + 12)
  have ht1 : transposeRoot ⟨rc⟩ n = .ok nr1 := by
    unfold transposeRoot
    simp only [hr, hlen, hm1, htab, hp1]
  have ht2 : transposeRoot ⟨rc⟩ (n + 12) = .ok nr2 := by
    unfold transposeRoot
    simp only [hr, hlen, hm2, htab, hp2]
  refine ⟨nr1, nr2, j, ?_, ?_, hj1, hj2⟩
  · rw [transposeChord_eq chord n rc hrc, ht1]
    rfl
  · rw [transposeChord_eq chord (n + 12) rc hrc, ht2]
    rfl

/-- Witness for the amended C6 at the chord "D#" and interval -2. -/
theorem c6_modulo_closure_witness :
    findRoot ("D#" : String).data = some ['D', '#'] ∧
    getNoteIndex ⟨['D', '#']⟩ = .ok 3 ∧
    (0 ≤ ((3 : Nat) : Int) + (-2) + 12) ∧
    (∃ (nr1 nr2 : String) (j : Nat),
      transposeChord "D#" (-2) =
        .ok (nr1 ++ (⟨("D#" : String).data.drop (['D', '#'] : List Char).length⟩ : String)) ∧
      transposeChord "D#" (-2 + 12) =
        .ok (nr2 ++ (⟨("D#" : String).data.drop (['D', '#'] : List Char).length⟩ : String)) ∧
      getNoteIndex nr1 = .ok j ∧ getNoteIndex nr2 = .ok j) :=
  ⟨rfl, rfl, by decide, c6_modulo_closure "D#" (-2) ['D', '#'] 3 rfl rfl (by decide)⟩

/-- Claim C7 (confirmed): when the chord begins with a note letter, the regex
match starts at position 0, and `transposeChord` is exactly the quality-blind
root pipeline `transposeRoot` followed by appending the input's quality
suffix verbatim — so any successful output carries the input's quality
character-for-character and the computation never inspects it. -/
theorem c7_quality_preserved (chord : String) (i : Int) (c : Char) (cs : List Char)
    (hc : chord.data = c :: cs) (hl : isNoteLetter c = true) :
    ∃ rc : List Char,
      findRoot chord.data = some rc ∧ rc <+: chord.data ∧
      transposeChord chord i =
        Except.map (fun nr => nr ++ (⟨chord.data.drop rc.length⟩ : String))
          (transposeRoot ⟨rc⟩ i) := by
  have hroot : ∃ rc, findRoot chord.data = some rc ∧ rc <+: chord.data := by
    rw [hc]
    cases cs with
    | nil =>
      refine ⟨[c], ?_, ⟨[], rfl⟩⟩
      unfold findRoot
      rw [if_pos hl]
    | cons d cs2 =>
      by_cases hd : (d == '#' || d == 'b') = true
      · refine ⟨[c, d], ?_, ⟨cs2, rfl⟩⟩
        unfold findRoot
        rw [if_pos hl]
        simp [hd]
      · refine ⟨[c], ?_, ⟨d :: cs2, rfl⟩⟩
        unfold findRoot
        rw [if_pos hl]
        simp [hd]
  obtain ⟨rc, h1, h2⟩ := hroot
  exact ⟨rc, h1, h2, transposeChord_eq chord i rc h1⟩

/-- Witness for C7 at the chord "Am" and interval 7. -/
theorem c7_quality_preserved_witness :
    ("Am" : String).data = 'A' :: ['m'] ∧ isNoteLetter 'A' = true ∧
    (∃ rc : List Char,
      findRoot ("Am" : String).data = some rc ∧ rc <+: ("Am" : String).data ∧
      transposeChord "Am" 7 =
        Except.map (fun nr => nr ++ (⟨("Am" : String).data.drop rc.length⟩ : String))
          (transposeRoot ⟨rc⟩ 7)) :=
  ⟨rfl, rfl, c7_quality_preserved "Am" 7 'A' ['m'] rfl rfl⟩

/-- Claim C8 (confirmed): on a table entry that splits into a sharp half and
a second half, `chooseEnharmonic` picks the sharp half when the direction is
positive, the second half when the direction is negative and that half
contains a flat marker, and the sharp half in every other case; an entry
without the separator is passed through unchanged. -/
theorem c8_enharmonic_rule (e : String) (d : Int) (he : e ∈ chromaticScale) :
    (∀ a b : String, jsSplit e '/' = [a, b] →
      chooseEnharmonic e d =
        .ok (if 0 < d then a else if d < 0 ∧ jsIncludes b "b" = true then b else a)) ∧
    (jsIncludes e "/" = false → pickSpelling e d = .ok e) := by
  constructor
  · intro a b hab
    simp only [chromaticScale, List.mem_cons, List.not_mem_nil, or_false] at he
    rcases he with rfl | rfl | rfl | rfl | rfl | rfl | rfl | rfl | rfl | rfl | rfl | rfl
    · injection hab with h1 h2
      injection h2
    · injection hab with h1 h2
      injection h2 with h3 h4
      subst h1
      subst h3
      exact chooseEnharmonic_pair_eq "C#/Db" "C#" "Db" rfl (by decide) d
    · injection hab with h1 h2
      injection h2
    · injection hab with h1 h2
      injection h2 with h3 h4
      subst h1
      subst h3
      exact chooseEnharmonic_pair_eq "D#/Eb" "D#" "Eb" rfl (by decide) d
    · injection hab with h1 h2
      injection h2
    · injection hab with h1 h2
      injection h2
    · injection hab with h1 h2
      injection h2 with h3 h4
      subst h1
      subst h3
      exact chooseEnharmonic_pair_eq "F#/Gb" "F#" "Gb" rfl (by decide) d
    · injection hab with h1 h2
      injection h2
    · injection hab with h1 h2
      injection h2 with h3 h4
      subst h1
      subst h3
      exact chooseEnharmonic_pair_eq "G#/Ab" "G#" "Ab" rfl (by decide) d
    · injection hab with h1 h2
      injection h2
    · injection hab with h1 h2
      injection h2 with h3 h4
      subst h1
      subst h3
      exact chooseEnharmonic_pair_eq "A#/Bb" "A#" "Bb" rfl (by decide) d
    · injection hab with h1 h2
      injection h2
  · intro hs
    exact pickSpelling_natural e d hs

/-- Witness for C8 at the pair entry "C#/Db" and direction -1. -/
theorem c8_enharmonic_rule_witness :
    ("C#/Db" : String) ∈ chromaticScale ∧
    chooseEnharmonic "C#/Db" (-1) =
      .ok (if 0 < (-1 : Int) then "C#"
        else if (-1 : Int) < 0 ∧ jsIncludes "Db" "b" = true then "Db" else "C#") :=
  ⟨by decide, (c8_enharmonic_rule "C#/Db" (-1) (by decide)).1 "C#" "Db" rfl⟩

/-- Claim C9 (confirmed): `transposeChords` splits on single spaces and maps
`transposeChord` over the parts. When every part succeeds the output is the
space-join of the per-part outputs, positionally; when the part at position
`k` fails while all earlier parts succeed, the whole call fails with that
part's error and produces no output. -/
theorem c9_sequence_atomicity (s : String) (i : Int) :
    (∀ outs : List String,
      mapExcept (fun chord => transposeChord chord i) (jsSplit s ' ') = .ok outs →
        transposeChords s i = .ok (jsJoin ' ' outs) ∧
        outs.length = (jsSplit s ' ').length ∧
        ∀ (j : Nat) (h1 : j < (jsSplit s ' ').length) (h2 : j < outs.length),
          transposeChord ((jsSplit s ' ').get ⟨j, h1⟩) i = .ok (outs.get ⟨j, h2⟩)) ∧
    (∀ (e : JsError) (k : Nat) (hk : k < (jsSplit s ' ').length),
      transposeChord ((jsSplit s ' ').get ⟨k, hk⟩) i = .error e →
      (∀ (j : Nat) (hj : j < k), ∃ oj,
        transposeChord ((jsSplit s ' ').get ⟨j, Nat.lt_trans hj hk⟩) i = .ok oj) →
      transposeChords s i = .error e) := by
  constructor
  · intro outs h
    obtain ⟨hl, hg⟩ := mapExcept_ok_spec _ (jsSplit s ' ') outs h
    refine ⟨?_, hl, hg⟩
    unfold transposeChords
    simp only [h]
  · intro e k hk hfk hprev
    have hmap := mapExcept_error_first (fun chord => transposeChord chord i)
      (jsSplit s ' ') e k hk hfk hprev
    unfold transposeChords
    simp only [hmap]

/-- Witness for C9 at the sequence "C F" and interval 7. -/
theorem c9_sequence_atomicity_witness :
    transposeChords "C F" 7 = .ok (jsJoin ' ' ["G", "C"]) :=
  ((c9_sequence_atomicity "C F" 7).1 ["G", "C"] rfl).1

/-- Claim C10 (confirmed): every string `transposeChord` returns is a chosen
root followed by the quality, where the root is a natural table entry or one
half of a pair entry, and every such spelling is itself accepted by
`getNoteIndex`. -/
theorem c10_output_root_resolvable (chord out : String) (i : Int)
    (h : transposeChord chord i = .ok out) :
    ∃ nr q : String, out = nr ++ q ∧ nr ∈ tableSpellings ∧ (getNoteIndex nr).isOk = true := by
  cases hrc : findRoot chord.data with
  | none =>
    unfold transposeChord at h
    simp only [hrc] at h
    exact Except.noConfusion h
  | some rc =>
    rw [transposeChord_eq chord i rc hrc] at h
    cases htr : transposeRoot (⟨rc⟩ : String) i with
    | error e =>
      rw [htr] at h
      exact Except.noConfusion h
    | ok nr =>
      rw [htr] at h
      have hout : out = nr ++ (⟨chord.data.drop rc.length⟩ : String) := by
        injection h with h2
        exact h2.symm
      have hmemSp : nr ∈ tableSpellings := by
        unfold transposeRoot at htr
        cases hg : getNoteIndex (⟨rc⟩ : String) with
        | error e =>
          simp only [hg] at htr
          exact Except.noConfusion htr
        | ok ri =>
          simp only [hg] at htr
          cases ht : tableAt (jsRem ((ri : Int) + i + (chromaticScale.length : Int))
              (chromaticScale.length : Int)) with
          | none =>
            simp only [ht] at htr
            exact Except.noConfusion htr
          | some entry =>
            simp only [ht] at htr
            have hmem : entry ∈ chromaticScale := tableAt_mem _ _ ht
            unfold tableSpellings
            rw [List.mem_flatMap]
            unfold pickSpelling at htr
            split at htr
            · rename_i hslash
              exact ⟨entry, hmem,
                by rw [if_pos hslash]; exact chooseEnharmonic_mem entry nr i htr⟩
            · rename_i hslash
              injection htr with h3
              subst h3
              exact ⟨entry, hmem, by rw [if_neg hslash]; simp⟩
      have hall : ∀ x ∈ tableSpellings, (getNoteIndex x).isOk = true := by decide
      exact ⟨nr, _, hout, hmemSp, hall nr hmemSp⟩

/-- Witness for C10 at the chord "Am" and interval 7. -/
theorem c10_output_root_resolvable_witness :
    transposeChord "Am" 7 = .ok "D#m" ∧
    (∃ nr q : String, "D#m" = nr ++ q ∧ nr ∈ tableSpellings ∧
      (getNoteIndex nr).isOk = true) :=
  ⟨rfl, c10_output_root_resolvable "Am" "D#m" 7 rfl⟩
